import Mathlib

/-!
Shallow embedding of the command/expression interpreter of `cli.js`
(`CommandLineInterpreter`, v1.0.2): statement splitting, argument
tokenization, the evaluation loop with its error handling, the built-in
commands (`clear`, `help`, `history`), history recording, and — modelled
from the spec where the source lacks them — the Variable Store operations.

Modelling conventions:
* JavaScript strings are Lean `String`/`List Char`; the rendering pipeline
  (`write`'s rich-text formatting into DOM nodes) is out of scope, so the
  output sink is modelled as the ordered list of texts passed to `write`.
* `console.error` is modelled as an ordered diagnostic log.
* `localStorage` persistence (`memorize`) is out of scope and not part of
  the modelled state.
* Asynchronous handler outcomes settle before the evaluator continues
  (mirroring `cmdResult.catch(__handleError).finally(__continue)`), so a
  handler is modelled as a state transformer returning its final state at
  settling time together with its outcome.
-/

set_option linter.unusedVariables false

namespace Cli

/-- JavaScript's `\s` character class (the whitespace set used by the regexes
in `cli.js` and by `String.prototype.trim`). -/
def jsWs (c : Char) : Bool :=
  c == ' ' || c == '\t' || c == '\n' || c == '\r' || c == '\x0b' || c == '\x0c' ||
  c == '\u00A0' || c == '\u1680' || ('\u2000' ≤ c && c ≤ '\u200A') ||
  c == '\u2028' || c == '\u2029' || c == '\u202F' || c == '\u205F' ||
  c == '\u3000' || c == '\uFEFF'

/-- The statement separator characters of `eval`'s split regex `[;\n]`. -/
def isSepChar (c : Char) : Bool := c == ';' || c == '\n'

/-- JavaScript line terminators, which `.` in a regex does not match. -/
def isLineTerm (c : Char) : Bool :=
  c == '\n' || c == '\r' || c == '\u2028' || c == '\u2029'

/-- JavaScript's `\w` word-character class `[A-Za-z0-9_]`. -/
def isWordChar (c : Char) : Bool := c.isAlphanum || c == '_'

/-- Trim leading JS whitespace from a character list. -/
def trimL (cs : List Char) : List Char := cs.dropWhile jsWs

/-- Trim trailing JS whitespace from a character list. -/
def trimR (cs : List Char) : List Char := ((cs.reverse).dropWhile jsWs).reverse

/-- JavaScript `String.prototype.trim`. -/
def jsTrim (s : String) : String := String.mk (trimL (trimR s.toList))

/-- The chunk filter of `eval`, `!!s.trim()`: keep a piece iff it has a
character outside JS whitespace. -/
def hasNonWs (cs : List Char) : Bool := cs.any (fun c => !jsWs c)

/-!
### Statement splitting

`eval` computes `expr.split(/\s*[;\n]+\s*/).filter((s) => !!s.trim())`
(cli.js line 347).  After the filter,
this is equivalent to: split at every single `;`/`\n`, eat the whitespace a
piece has next to a separator (right edge of every piece but the last, left
edge of every piece but the first — exactly the `\s*` wings of the separator
regex), and drop the pieces that are empty or whitespace-only (pieces lying
between two separators inside one whitespace run collapse to empty and are
dropped, which is also what the JS regex' greedy matching produces).
-/

/-- Split a character list at every separator character; `n` separators yield
`n + 1` pieces (pieces may be empty). -/
def splitOnSep : List Char → List (List Char)
  | [] => [[]]
  | c :: t =>
    if isSepChar c then [] :: splitOnSep t
    else
      match splitOnSep t with
      | [] => [[c]]
      | p :: ps => (c :: p) :: ps

/-- Trim the right edge of every piece except the last (the trailing `\s*`
of a separator match eats that whitespace). -/
def trimRExceptLast : List (List Char) → List (List Char)
  | [] => []
  | [p] => [p]
  | p :: ps => trimR p :: trimRExceptLast ps

/-- Trim the left edge of every piece except the first (the leading `\s*`
of a separator match eats that whitespace). -/
def trimLExceptFirst : List (List Char) → List (List Char)
  | [] => []
  | p :: ps => p :: ps.map trimL

/-- The statement sequence of `eval`:
`expr.split(/\s*[;\n]+\s*/).filter((s) => !!s.trim())`. -/
def splitStatementsL (cs : List Char) : List (List Char) :=
  (trimLExceptFirst (trimRExceptLast (splitOnSep cs))).filter hasNonWs

/-- String-level view of `splitStatementsL`. -/
def splitStatements (s : String) : List String :=
  (splitStatementsL s.toList).map (fun cs => String.mk cs)

/-!
### Argument tokenization

`__eval` tokenizes the remainder of a command line with
`matchAll(/"([^"]*)"|\S+/g)` and pushes `argMatch[1] || argMatch[0]` for
each match.  At each scan position the quoted alternative is tried first:
it succeeds iff the position holds `"` and a closing `"` follows somewhere;
otherwise a maximal `\S+` run is taken; positions where neither alternative
matches (whitespace) are skipped.  Because `""` — the empty capture — is
falsy in JavaScript, an empty quoted group degrades to `argMatch[0]`, the
two-character string `""`.
-/

/-- Scan for the closing quote: on the characters after an opening `"`,
return the interior (every character up to the first `"`) and the rest
after the closing quote, or `none` if no closing quote exists. -/
def findClose : List Char → Option (List Char × List Char)
  | [] => none
  | c :: t =>
    if c == '"' then some ([], t)
    else
      match findClose t with
      | some (i, r) => some (c :: i, r)
      | none => none

theorem findClose_length {t i r : List Char} (h : findClose t = some (i, r)) :
    i.length + r.length + 1 = t.length := by
  induction t generalizing i with
  | nil => simp [findClose] at h
  | cons c t ih =>
    by_cases hc : c == '"'
    · simp [findClose, hc] at h
      obtain ⟨hi, hr⟩ := h
      subst hi; subst hr; simp
    · simp only [findClose, hc, if_neg] at h
      match hfc : findClose t with
      | some (i', r') =>
        rw [hfc] at h
        simp at h
        obtain ⟨hi, hr⟩ := h
        subst hi; subst hr
        have := ih hfc
        simp [List.length_cons]
        omega
      | none => rw [hfc] at h; simp at h

/-- Fuel-indexed scanner behind `tokenizeArgs`.  Every recursive call is on a
strictly shorter list, so fuel `cs.length` always suffices; the fuel only
makes the recursion structural (and hence computable by `decide`/`rfl`). -/
def tokF : Nat → List Char → List String
  | _, [] => []
  | 0, _ :: _ => []
  | n + 1, c :: t =>
    if c == '"' then
      match findClose t with
      | some (interior, rest) =>
        (if interior = [] then "\"\"" else String.mk interior) :: tokF n rest
      | none =>
        String.mk (c :: t.takeWhile (fun c => !jsWs c)) ::
          tokF n (t.dropWhile (fun c => !jsWs c))
    else if jsWs c then tokF n t
    else
      String.mk (c :: t.takeWhile (fun c => !jsWs c)) ::
        tokF n (t.dropWhile (fun c => !jsWs c))

theorem tokF_congr : ∀ n m cs, cs.length ≤ n → cs.length ≤ m → tokF n cs = tokF m cs := by
  intro n
  induction n with
  | zero =>
    intro m cs hn _
    have : cs = [] := List.eq_nil_of_length_eq_zero (Nat.le_zero.mp hn)
    subst this
    cases m <;> rfl
  | succ n ih =>
    intro m cs hn hm
    match cs with
    | [] => cases m <;> rfl
    | c :: t =>
      match m with
      | 0 => simp at hm
      | m + 1 =>
        simp only [List.length_cons, Nat.add_le_add_iff_right] at hn hm
        show tokF (n + 1) (c :: t) = tokF (m + 1) (c :: t)
        simp only [tokF]
        by_cases hq : c == '"'
        · simp only [hq, if_pos]
          match hfc : findClose t with
          | some (interior, rest) =>
            have hlen := findClose_length hfc
            have hr : rest.length ≤ t.length := by omega
            dsimp only
            rw [ih m rest (le_trans hr hn) (le_trans hr hm)]
          | none =>
            have hd : (t.dropWhile (fun c => !jsWs c)).length ≤ t.length :=
              (List.dropWhile_sublist _).length_le
            dsimp only
            rw [ih m _ (le_trans hd hn) (le_trans hd hm)]
        · simp only [hq]
          by_cases hw : jsWs c
          · simp only [hw, if_pos, if_neg, Bool.false_eq_true, if_false]
            exact ih m t hn hm
          · simp only [hw, Bool.false_eq_true, if_false]
            have hd : (t.dropWhile (fun c => !jsWs c)).length ≤ t.length :=
              (List.dropWhile_sublist _).length_le
            rw [ih m _ (le_trans hd hn) (le_trans hd hm)]

/-- The tokenizer of `__eval` (lines 302–306):
`for (let argMatch of rest.matchAll(/"([^"]*)"|\S+/g)) args.push(argMatch[1] || argMatch[0])`. -/
def tokenizeArgs (cs : List Char) : List String := tokF cs.length cs

/-- String-level view of `tokenizeArgs`. -/
def tokenizeArgsStr (s : String) : List String := tokenizeArgs s.toList

theorem tokenizeArgs_nil : tokenizeArgs [] = [] := rfl

theorem tokenizeArgs_ws {c : Char} (t : List Char) (hq : ¬ c == '"') (hw : jsWs c) :
    tokenizeArgs (c :: t) = tokenizeArgs t := by
  show tokF (t.length + 1) (c :: t) = tokF t.length t
  simp only [tokF, hq, hw, Bool.false_eq_true, if_false, if_pos]

theorem tokenizeArgs_quoted {t interior rest : List Char}
    (hfc : findClose t = some (interior, rest)) :
    tokenizeArgs ('"' :: t) =
      (if interior = [] then "\"\"" else String.mk interior) :: tokenizeArgs rest := by
  show tokF (t.length + 1) ('"' :: t) = _
  simp only [tokF, hfc, beq_self_eq_true, if_pos]
  have hlen := findClose_length hfc
  rw [tokF_congr t.length rest.length rest (by omega) (Nat.le_refl _)]
  rfl

theorem tokenizeArgs_unquoted {c : Char} (t : List Char) (hq : ¬ c == '"')
    (hw : ¬ jsWs c) :
    tokenizeArgs (c :: t) =
      String.mk (c :: t.takeWhile (fun c => !jsWs c)) ::
        tokenizeArgs (t.dropWhile (fun c => !jsWs c)) := by
  show tokF (t.length + 1) (c :: t) = _
  simp only [tokF, hq, hw, Bool.false_eq_true, if_false]
  have hd : (t.dropWhile (fun c => !jsWs c)).length ≤ t.length :=
    (List.dropWhile_sublist _).length_le
  rw [tokF_congr t.length _ _ hd (Nat.le_refl _)]
  rfl

theorem tokenizeArgs_unterminated (t : List Char) (hfc : findClose t = none) :
    tokenizeArgs ('"' :: t) =
      String.mk ('"' :: t.takeWhile (fun c => !jsWs c)) ::
        tokenizeArgs (t.dropWhile (fun c => !jsWs c)) := by
  show tokF (t.length + 1) ('"' :: t) = _
  simp only [tokF, hfc, beq_self_eq_true, if_pos]
  have hd : (t.dropWhile (fun c => !jsWs c)).length ≤ t.length :=
    (List.dropWhile_sublist _).length_le
  rw [tokF_congr t.length _ _ hd (Nat.le_refl _)]
  rfl

/-!
### Session state, output sink, handlers

The mutable session state.  `output` is the ordered list of texts passed to
`write` (DOM rendering out of scope), `errlog` the ordered list of
`console.error` diagnostics.  `history` carries the bolted-on `position` and
`limit` fields of `cli.history`.  `vars` is the Variable Store, modelled
from the spec: the eval doc comment of `cli.js` declares "commands or
variable assignments", but v1.0.2 contains no assignment code (see
`evalStmtV` below); the src-faithful evaluator `evalStmt` never touches it.
-/

/-- The value of the bolted-on `cli.history.limit` property: a number
(`num`), `NaN` (`nan`, reachable through `history --limit` with a
non-numeric digit-containing value), or absent (`undef`): `history --clear`
and `history --clean` assign a brand-new array to `cli.history` (cli.js
lines 69, 76) and only restore `position`, so the `limit` property is lost.
For both `nan` and `undef`, `splice(0, length - limit)` has count `NaN` and
drops nothing; they differ in the `--limit` branch, where `typeof` accepts
`NaN` as a number but rejects `undefined`. -/
inductive HistLimit where
  | num : Nat → HistLimit
  | nan : HistLimit
  | undef : HistLimit
deriving Repr, DecidableEq

structure CliState where
  output : List String
  errlog : List String
  history : List String
  histPos : Int
  histLimit : HistLimit
  vars : List (String × String)
deriving Repr, DecidableEq

/-- Embeds `write(text)`: append `text` to the output sink (cli.js lines 454–599;
the rich-text rendering of the text is out of scope). -/
def write (st : CliState) (text : String) : CliState :=
  { st with output := st.output ++ [text] }

/-- Embeds `writeLn(text) = write(text + "\n")` (cli.js lines 606–609). -/
def writeLn (st : CliState) (text : String) : CliState :=
  write st (text ++ "\n")

/-- Outcome of invoking a command handler, as distinguished by `__eval`:
a plain returned value, a synchronous `throw`, or a returned `Promise`
that eventually resolves or rejects.  For promises the carried state is the
state once the promise has settled (the evaluator waits via
`.catch(__handleError).finally(__continue)` before continuing). -/
inductive HandlerResult where
  | value : HandlerResult
  | thrown : String → HandlerResult
  | promiseResolved : HandlerResult
  | promiseRejected : String → HandlerResult
deriving Repr, DecidableEq

/-- A command handler `(cli, ...args) => ...`.  It receives the registered
command names (the handler's view of `cli.commands.keys()`), the session
state and the argument list, and yields the state at settling time together
with its outcome. -/
abbrev Handler : Type := List String → CliState → List String → CliState × HandlerResult

/-- The command registry `cli.commands : Map<string, callback>` (insertion
ordered, keys unique by construction). -/
abbrev Registry : Type := List (String × Handler)

/-- The registered command names, `Array.from(cli.commands.keys())`. -/
def regNames (reg : Registry) : List String := reg.map Prod.fst

/-- Embeds `Map.prototype.get`: the binding of the first entry with the given key
(keys are unique by construction). -/
def lookupCmd : Registry → String → Option Handler
  | [], _ => none
  | p :: t, k => if p.1 = k then some p.2 else lookupCmd t k

/-- Embeds `Map.prototype.set`: replace the value in place if the key is present,
otherwise append the binding (cli.js line 241). -/
def mapSet (m : Registry) (k : String) (v : Handler) : Registry :=
  if m.any (fun p => p.1 == k) then
    m.map (fun p => if p.1 == k then (k, v) else p)
  else m ++ [(k, v)]

/-!
### Built-in commands (cli.js lines 15–107)
-/

/-- The built-in command `clear` (cli.js lines 17–31). -/
def clearCmd : Handler := fun _names st args =>
  (match args.head? with
   | some "--?" => writeLn (writeLn st "Usage: clear") "Clear all output."
   | none => { st with output := [] }
   | some other => writeLn st ("clear: Invalid argument: " ++ other),
   .value)

/-- The built-in command `help` (cli.js lines 33–52).  `Array.prototype.sort`
with the default comparator is modelled by `List.insertionSort (· ≤ ·)`
(lexicographic string order; registered names are pairwise distinct, so
stability is irrelevant). -/
def helpCmd : Handler := fun names st args =>
  (match args.head? with
   | some "--?" =>
     writeLn (writeLn st "Usage: help") "Display a list of all available commands."
   | none =>
     writeLn
       (writeLn (writeLn st "These are the available commands:")
         (String.intercalate "\n"
           ((List.insertionSort (· ≤ ·) names).map (fun s => "\t" ++ s))))
       "\nTry `<command> --?` for more information on a specific command."
   | some other => writeLn st ("help: Invalid argument: " ++ other),
   .value)

/-- Embeds `Object.keys(CommandLineInterpreter.builtInCommands)` (cli.js line 74). -/
def builtInCommandNames : List String := ["clear", "help", "history"]

/-- Embeds `Array.from(new Set(xs))`: deduplicate keeping the first occurrence of
each element (JS `Set` preserves insertion order). -/
def dedupFirst : List String → List String
  | [] => []
  | x :: xs => x :: (dedupFirst xs).filter (fun y => y ≠ x)

/-- The leading token of a history entry: `/^\S+/.exec(s)?.[0] ?? ""`
(cli.js line 78). -/
def leadingToken (s : String) : String :=
  String.mk (s.toList.takeWhile (fun c => !jsWs c))

/-- The `history --clean` core (cli.js lines 76–80):
`Array.from(new Set(cli.history)).filter((s) => validCommands.includes(leading token))`. -/
def cleanHistory (validCommands : List String) (h : List String) : List String :=
  (dedupFirst h).filter (fun s => validCommands.contains (leadingToken s))

/-- Embeds `splice(0, length - limit)`: drop the oldest entries beyond a
numeric limit.  A `NaN` or absent limit makes the splice count `NaN`,
i.e. drops nothing. -/
def spliceFront (h : List String) : HistLimit → List String
  | .num n => h.drop (h.length - n)
  | .nan => h
  | .undef => h

/-- Render the history limit for output (template-string coercion). -/
def showLimit : HistLimit → String
  | .num n => toString n
  | .nan => "NaN"
  | .undef => "undefined"

/-- Embeds `Number(v)` restricted to the strings the `history --limit` branch can
meet: a string that (after JS trimming) is a nonempty decimal-digit sequence
converts to that number; anything else is modelled as `NaN`.
(JS's further numeric forms — floats, hex, exponents — are not modelled;
no claim exercises them.) -/
def jsNumberNat (v : String) : HistLimit :=
  match (jsTrim v).toNat? with
  | some n => .num n
  | none => .nan

/-- Embeds `getNamedArgumentValue(args, name)` for a single name (cli.js
lines 434–447): the item following `name`, or `""` when that item is absent
or starts with a hyphen, or `undefined` when `name` is not present. -/
def getNamedArgumentValue (args : List String) (name : String) : Option String :=
  match args.indexOf? name with
  | some i =>
    match args.get? (i + 1) with
    | some v => if v.toList.head? = some '-' then some "" else some v
    | none => some ""
  | none => none

/-- The built-in command `history` (cli.js lines 54–106). -/
def historyCmd : Handler := fun names st args =>
  (match args.head? with
   | some "--?" =>
     writeLn (writeLn (writeLn (writeLn st "Usage: history [option]")
       "Display or manage the list of all that has been entered.")
       "Optional arguments to manage the history:")
       (String.intercalate "\n"
         ["  \t--clean\tRemove duplicate entries and invalid commands",
          "  \t--clear\tClean the entire history",
          "  \t--limit [<n>]\tDisplay or set the limit of history items"])
   | some "--clear" =>
     -- cli.history = [] is a fresh array: the limit property is lost
     { st with history := [], histPos := -1, histLimit := .undef }
   | some "--clean" =>
     let validCommands := names.filter (fun s => !builtInCommandNames.contains s)
     let h := cleanHistory validCommands st.history
     -- the filtered Set copy is a fresh array: the limit property is lost
     writeLn { st with history := h, histPos := (h.length : Int), histLimit := .undef }
       "The history has been cleaned."
   | some "--limit" =>
     -- let limitValue = cli.getNamedArgumentValue(args, "--limit") || cli.history.limit
     let limitValue : Sum String HistLimit :=
       match getNamedArgumentValue args "--limit" with
       | some v => if v = "" then .inr st.histLimit else .inl v
       | none => .inr st.histLimit
     let applyLimit := fun (l : HistLimit) =>
       writeLn { st with histLimit := l, history := spliceFront st.history l }
         ("The history is limited to " ++ showLimit l ++ " itmes.")
     match limitValue with
     | .inr (.num n) => applyLimit (.num n)
     | .inr .nan => applyLimit .nan
     | .inr .undef =>
       -- typeof undefined is not "number" and /[0-9]+/.test("undefined") fails
       writeLn st ("history: Not a number: undefined")
     | .inl v =>
       if v.toList.any Char.isDigit then applyLimit (jsNumberNat v)
       else writeLn st ("history: Not a number: " ++ v)
   | none => writeLn st (String.intercalate "\n" st.history)
   | some other => writeLn st ("history: Invalid argument: " ++ other),
   .value)

/-!
### Registry construction (cli.js lines 234–244)

`for (let commandProvider of [builtInCommands, commands]) for (let [command,
func] of Object.entries(commandProvider)) if (typeof func === "function")
this.commands.set(command, func)`.  A provider entry carrying `none` models
a non-function value, which the constructor skips.
-/

def builtinProvider : List (String × Option Handler) :=
  [("clear", some clearCmd), ("help", some helpCmd), ("history", some historyCmd)]

def registerProvider : Registry → List (String × Option Handler) → Registry
  | m, [] => m
  | m, p :: ps =>
    registerProvider (match p.2 with | some f => mapSet m p.1 f | none => m) ps

/-- The registry a session starts with: built-ins first, then the
caller-supplied commands, later registrations replacing earlier ones. -/
def mkCommands (customs : List (String × Option Handler)) : Registry :=
  registerProvider (registerProvider [] builtinProvider) customs

/-- The effective binding a provider list contributes for a key: its last
function-valued entry with that key, if any. -/
def providerResolve : List (String × Option Handler) → String → Option Handler
  | [], _ => none
  | p :: ps, k =>
    match providerResolve ps k with
    | some f => some f
    | none =>
      match p.2 with
      | some f => if p.1 = k then some f else none
      | none => none

/-!
### The evaluator (cli.js lines 281–350)
-/

/-- Embeds `__handleError` (cli.js lines 285–289): write the error to the output
sink on the red style channel and report it to `console.error`. -/
def handleError (e : String) (st : CliState) : CliState :=
  { writeLn st ("\x1b[31m" ++ e) with errlog := st.errlog ++ [e] }

/-- Embeds `/(\S+)(.*)/.exec(string)` (cli.js line 295): the first maximal run of
non-whitespace characters (the command name) plus the remainder up to the
next line terminator (`.` does not match line terminators), or `none` if
the string is whitespace-only. -/
def execCmdRegex (s : List Char) : Option (List Char × List Char) :=
  match s.dropWhile jsWs with
  | [] => none
  | s1 =>
    let cmd := s1.takeWhile (fun c => !jsWs c)
    let rest := (s1.dropWhile (fun c => !jsWs c)).takeWhile (fun c => !isLineTerm c)
    some (cmd, rest)

/-- Embeds `__eval` on a single statement (cli.js lines 290–333): resolve the first
token in the registry; if resolved, tokenize the remainder and invoke the
handler, recovering a synchronous throw or an asynchronous rejection via
`__handleError`; if unresolved, write `Unknown command: <name>`; a
whitespace-only statement is a no-op.  The returned state is the state once
the statement's effect (including a promise) has settled. -/
def evalStmt (reg : Registry) (st : CliState) (chunk : List Char) : CliState :=
  match execCmdRegex chunk with
  | none => st
  | some (cmdCs, restCs) =>
    let cmd := String.mk cmdCs
    match lookupCmd reg cmd with
    | some f =>
      let args := tokenizeArgs restCs
      let (st', res) := f (regNames reg) st args
      match res with
      | .value => st'
      | .promiseResolved => st'
      | .thrown e => handleError e st'
      | .promiseRejected e => handleError e st'
    | none => writeLn st ("Unknown command: " ++ cmd)

/-- Embeds `__loop` (cli.js lines 334–346): process the statement chunks strictly
in order, each one only after the previous one's effect has settled, and
resolve once the list is exhausted. -/
def evalLoop (reg : Registry) : List (List Char) → CliState → CliState
  | [], st => st
  | c :: cs, st => evalLoop reg cs (evalStmt reg st c)

/-- Embeds `eval(expr)` (cli.js lines 281–350): split the expression into statement
chunks and run the loop.  The JS promise always resolves; the model is a
total function. -/
def evalExpr (reg : Registry) (expr : String) (st : CliState) : CliState :=
  evalLoop reg (splitStatementsL expr.toList) st

/-!
### History recording (cli.js lines 195–207, the `Enter` branch)
-/

/-- Does the committed line contain a word character (`/\w/.test(inputString)`)? -/
def hasWordChar (s : String) : Bool := s.toList.any isWordChar

/-- The history-recording block of the `Enter` key handler (cli.js
lines 200–206): push the trimmed line unless the raw line equals the last
entry, truncate from the front to the limit, and reset the cursor to the
new length. -/
def recordLine (line : String) (st : CliState) : CliState :=
  let entries :=
    if st.history.getLast? = some line then st.history
    else st.history ++ [jsTrim line]
  let entries2 := spliceFront entries st.histLimit
  { st with history := entries2, histPos := (entries2.length : Int) }

/-- The full `Enter` recording step including the `/\w/` guard (cli.js
lines 198–207). -/
def onEnterRecord (line : String) (st : CliState) : CliState :=
  if hasWordChar line then recordLine line st else st

/-!
### Variable Store — modelled from the spec

`cli.js` documents `eval` as evaluating "commands or variable assignments"
(lines 275–278, and the `startup` option docs), but v1.0.2 contains no
assignment branch, no variable storage and no substitution; the spec
(§4.2, §4.5 step 2) describes them.  The definitions below are therefore
modelled from the spec, not translated from src.
-/

/-- Modelled from the spec: the assignment pattern of §4.5 step 2a
("optional leading whitespace, one token, `=`, remainder"), i.e. a
backtracking `/^\s*(\S+)=(.*)$/`: the name is the longest nonempty prefix
of the leading non-whitespace run that is immediately followed by `=`;
the remainder is everything after that `=`. -/
def parseAssignment (chunk : List Char) : Option (String × String) :=
  let s := chunk.dropWhile jsWs
  let run := s.takeWhile (fun c => !jsWs c)
  let after := s.dropWhile (fun c => !jsWs c)
  match run.reverse.indexOf? '=' with
  | some ri =>
    let pos := run.length - 1 - ri
    if 1 ≤ pos then
      some (String.mk (run.take pos), String.mk (run.drop (pos + 1) ++ after))
    else none
  | none => none

/-- Remove a variable binding. -/
def varsRemove (n : String) (vs : List (String × String)) : List (String × String) :=
  vs.filter (fun p => p.1 ≠ n)

/-- Store a variable binding, replacing any previous one. -/
def varsStore (n v : String) (vs : List (String × String)) : List (String × String) :=
  vs.filter (fun p => p.1 ≠ n) ++ [(n, v)]

/-- Modelled from the spec: Variable Store `set` (§4.2, absent from src
v1.0.2).  A name with a non-word character fails with a diagnostic
(non-fatal); an empty trimmed value removes the variable; otherwise the
trimmed value is stored.  Persistence is out of scope. -/
def varSet (name value : String) (st : CliState) : CliState :=
  match name.toList.find? (fun c => !isWordChar c) with
  | some c => writeLn st ("Invalid token: " ++ String.mk [c])
  | none =>
    if jsTrim value = "" then { st with vars := varsRemove name st.vars }
    else { st with vars := varsStore name (jsTrim value) st.vars }

/-- Look up a variable binding (first match; names are unique by
construction of `varsStore`/`varsRemove`). -/
def varsLookup : List (String × String) → String → Option String
  | [], _ => none
  | p :: t, n => if p.1 = n then some p.2 else varsLookup t n

/-- Case-insensitive match of a variable name against a prefix of the
input; returns the rest after the name on success. -/
def matchesNameCI : List Char → List Char → Option (List Char)
  | [], rest => some rest
  | _ :: _, [] => none
  | n :: ns, c :: cs => if n.toLower == c.toLower then matchesNameCI ns cs else none

theorem matchesNameCI_length :
    ∀ {name t rest : List Char}, matchesNameCI name t = some rest →
      rest.length ≤ t.length := by
  intro name
  induction name with
  | nil => intro t rest h; simp [matchesNameCI] at h; subst h; exact Nat.le_refl _
  | cons n ns ih =>
    intro t rest h
    match t with
    | [] => simp [matchesNameCI] at h
    | c :: cs =>
      simp only [matchesNameCI] at h
      by_cases hc : n.toLower == c.toLower
      · rw [if_pos hc] at h
        exact Nat.le_succ_of_le (ih h)
      · rw [if_neg hc] at h; cases h

/-- Fuel-indexed scanner behind `replaceVar` (fuel `cs.length` suffices;
it only makes the recursion structural). -/
def replF : Nat → List Char → List Char → List Char → List Char
  | _, _, _, [] => []
  | 0, _, _, c :: t => c :: t
  | n + 1, name, value, c :: t =>
    if c == '$' then
      match matchesNameCI name t with
      | some rest =>
        if (rest.head?.map isWordChar).getD false then '$' :: replF n name value t
        else value ++ replF n name value rest
      | none => '$' :: replF n name value t
    else c :: replF n name value t

/-- Modelled from the spec: replace every whole-word, case-insensitive
occurrence of `$name` (word boundary required after the name) by `value`
(§4.2 `substitute`). -/
def replaceVar (name value : List Char) (cs : List Char) : List Char :=
  replF cs.length name value cs

/-- Modelled from the spec: Variable Store `substitute` (§4.2, absent from
src v1.0.2) — apply `replaceVar` for every defined variable, but only when
the argument does not start with `-`. -/
def substitute (vars : List (String × String)) (arg : String) : String :=
  if arg.toList.head? = some '-' then arg
  else String.mk (vars.foldl (fun cs p => replaceVar p.1.toList p.2.toList cs) arg.toList)

/-- Modelled from the spec: the per-statement evaluator step with the
assignment branch of §4.5 step 2a tested before command dispatch, and §4.5
step 2b's argument substitution applied before the handler is invoked.
Everything else is the src-faithful `evalStmt` logic. -/
def evalStmtV (reg : Registry) (st : CliState) (chunk : List Char) : CliState :=
  match parseAssignment chunk with
  | some (n, v) => varSet n v st
  | none =>
    match execCmdRegex chunk with
    | none => st
    | some (cmdCs, restCs) =>
      let cmd := String.mk cmdCs
      match lookupCmd reg cmd with
      | some f =>
        let args := (tokenizeArgs restCs).map (substitute st.vars)
        let (st', res) := f (regNames reg) st args
        match res with
        | .value => st'
        | .promiseResolved => st'
        | .thrown e => handleError e st'
        | .promiseRejected e => handleError e st'
      | none => writeLn st ("Unknown command: " ++ cmd)

/-!
## Supporting lemmas
-/

theorem evalLoop_append (reg : Registry) (xs ys : List (List Char)) (st : CliState) :
    evalLoop reg (xs ++ ys) st = evalLoop reg ys (evalLoop reg xs st) := by
  induction xs generalizing st with
  | nil => rfl
  | cons c cs ih => simp only [List.cons_append, evalLoop]; exact ih _

theorem evalLoop_eq_foldl (reg : Registry) (cs : List (List Char)) (st : CliState) :
    evalLoop reg cs st = cs.foldl (evalStmt reg) st := by
  induction cs generalizing st with
  | nil => rfl
  | cons c t ih => simp only [evalLoop, List.foldl]; exact ih _

theorem splitOnSep_ne_nil (cs : List Char) : splitOnSep cs ≠ [] := by
  cases cs with
  | nil => simp [splitOnSep]
  | cons c t =>
    simp only [splitOnSep]
    by_cases h : isSepChar c
    · simp [h]
    · simp only [h, Bool.false_eq_true, if_false]
      cases hs : splitOnSep t <;> simp

theorem splitOnSep_no_sep :
    ∀ (cs : List Char) (p : List Char), p ∈ splitOnSep cs →
      ∀ c ∈ p, isSepChar c = false := by
  intro cs
  induction cs with
  | nil =>
    intro p hp c hc
    simp only [splitOnSep, List.mem_singleton] at hp
    subst hp; simp at hc
  | cons a t ih =>
    intro p hp c hc
    simp only [splitOnSep] at hp
    by_cases ha : isSepChar a
    · rw [if_pos ha] at hp
      rcases List.mem_cons.mp hp with h | h
      · subst h; simp at hc
      · exact ih p h c hc
    · rw [if_neg ha] at hp
      cases hs : splitOnSep t with
      | nil => exact absurd hs (splitOnSep_ne_nil t)
      | cons q qs =>
        rw [hs] at hp
        rcases List.mem_cons.mp hp with h | h
        · subst h
          rcases List.mem_cons.mp hc with h2 | h2
          · subst h2; simpa using ha
          · exact ih q (hs ▸ List.mem_cons_self q qs) c h2
        · exact ih p (by rw [hs]; exact List.mem_cons_of_mem _ h) c hc

theorem trimL_subset (p : List Char) : trimL p ⊆ p :=
  (List.dropWhile_sublist _).subset

theorem trimR_subset (p : List Char) : trimR p ⊆ p := by
  intro c hc
  simp only [trimR, List.mem_reverse] at hc
  have hsub : List.Sublist (List.dropWhile jsWs p.reverse) p.reverse :=
    List.dropWhile_sublist jsWs
  have := hsub.subset hc
  simpa using this

theorem mem_trimRExceptLast :
    ∀ (ps : List (List Char)) (q : List Char), q ∈ trimRExceptLast ps →
      ∃ p ∈ ps, q ⊆ p := by
  intro ps
  induction ps with
  | nil => intro q h; simp [trimRExceptLast] at h
  | cons p ps ih =>
    intro q h
    cases ps with
    | nil =>
      simp only [trimRExceptLast, List.mem_singleton] at h
      exact ⟨p, by simp, h ▸ fun c hc => hc⟩
    | cons r rs =>
      simp only [trimRExceptLast] at h
      rcases List.mem_cons.mp h with h | h
      · exact ⟨p, by simp, h ▸ trimR_subset p⟩
      · obtain ⟨p2, hp2, hsub⟩ := ih q h
        exact ⟨p2, List.mem_cons_of_mem _ hp2, hsub⟩

theorem mem_trimLExceptFirst (ps : List (List Char)) (q : List Char)
    (h : q ∈ trimLExceptFirst ps) : ∃ p ∈ ps, q ⊆ p := by
  cases ps with
  | nil => simp [trimLExceptFirst] at h
  | cons p rest =>
    simp only [trimLExceptFirst] at h
    rcases List.mem_cons.mp h with h | h
    · exact ⟨p, by simp, h ▸ fun c hc => hc⟩
    · obtain ⟨r, hr, rfl⟩ := List.mem_map.mp h
      exact ⟨r, List.mem_cons_of_mem _ hr, trimL_subset r⟩

theorem splitStatementsL_mem (cs stmt : List Char) (h : stmt ∈ splitStatementsL cs) :
    (∀ c ∈ stmt, isSepChar c = false) ∧ hasNonWs stmt = true := by
  unfold splitStatementsL at h
  have h2 := List.mem_filter.mp h
  refine ⟨?_, h2.2⟩
  obtain ⟨q, hq, hsub1⟩ := mem_trimLExceptFirst _ _ h2.1
  obtain ⟨p, hp, hsub2⟩ := mem_trimRExceptLast _ _ hq
  intro c hc
  exact splitOnSep_no_sep cs p hp c (hsub2 (hsub1 hc))

/-- A concrete fresh session state (empty sinks, default history limit 50). -/
def st0 : CliState :=
  { output := [], errlog := [], history := [], histPos := 0,
    histLimit := .num 50, vars := [] }

/-- A caller-supplied command that throws synchronously. -/
def badCmd : Handler := fun _names st _args => (st, .thrown "Error: boom")

/-- A caller-supplied `echo` that writes its arguments as one line. -/
def echoCmd : Handler := fun _names st args =>
  (writeLn st (String.intercalate " " args), .value)

/-- A session registry with the built-ins plus `bad` and `echo`. -/
def reg2 : Registry := mkCommands [("bad", some badCmd), ("echo", some echoCmd)]

/-!
## Claims
-/

/-- C1: `eval` splits the expression on one-or-more semicolons/line breaks
(dropping empty and whitespace-only statements) into an ordered statement
sequence and processes it strictly sequentially — the evaluation is a left
fold of the per-statement step, so statement `i+1` runs on the state left
once statement `i`'s effect (a settled handler outcome included) is
complete, the result is reached only after the last statement settles, and
empty input returns the state unchanged immediately.  Every produced
statement contains no separator character and at least one
non-whitespace character. -/
theorem eval_sequential (reg : Registry) (expr : String) (st : CliState) :
    evalExpr reg expr st = (splitStatementsL expr.toList).foldl (evalStmt reg) st ∧
    evalExpr reg "" st = st ∧
    (∀ xs ys st1, evalLoop reg (xs ++ ys) st1 = evalLoop reg ys (evalLoop reg xs st1)) ∧
    splitStatements "a;; b \n\n ;c " = ["a", "b", "c "] ∧
    (∀ stmt ∈ splitStatementsL expr.toList,
      (∀ c ∈ stmt, isSepChar c = false) ∧ hasNonWs stmt = true) :=
  ⟨evalLoop_eq_foldl reg _ st, rfl,
   fun xs ys st1 => evalLoop_append reg xs ys st1,
   by decide,
   fun stmt h => splitStatementsL_mem _ stmt h⟩

theorem eval_sequential_witness :
    ("a".toList ∈ splitStatementsL ("a; b".toList)) ∧
    ((∀ c ∈ "a".toList, isSepChar c = false) ∧ hasNonWs "a".toList = true) :=
  ⟨by decide, (eval_sequential [] "a; b" st0).2.2.2.2 "a".toList (by decide)⟩

/-- C2: when a statement's handler throws synchronously or its promise
rejects, `__eval` recovers at the evaluator boundary: the error is written
to the output sink as a red-styled error line, reported to `console.error`,
and the loop continues with all remaining statements of the expression; the
evaluation (a total function, like the promise that always resolves)
never aborts. -/
theorem eval_handler_failure_isolated (reg : Registry) (chunk : List Char)
    (cs : List (List Char)) (st : CliState) (cmdCs restCs : List Char) (f : Handler)
    (st1 : CliState) (res : HandlerResult) (e : String)
    (h1 : execCmdRegex chunk = some (cmdCs, restCs))
    (h2 : lookupCmd reg (String.mk cmdCs) = some f)
    (h3 : f (regNames reg) st (tokenizeArgs restCs) = (st1, res))
    (h4 : res = .thrown e ∨ res = .promiseRejected e) :
    evalStmt reg st chunk = handleError e st1 ∧
    handleError e st1 =
      { st1 with output := st1.output ++ ["\x1b[31m" ++ e ++ "\n"],
                 errlog := st1.errlog ++ [e] } ∧
    evalLoop reg (chunk :: cs) st = evalLoop reg cs (handleError e st1) := by
  have hstmt : evalStmt reg st chunk = handleError e st1 := by
    unfold evalStmt
    rw [h1]
    dsimp only
    rw [h2]
    dsimp only
    rw [h3]
    rcases h4 with h | h <;> subst h <;> rfl
  exact ⟨hstmt, rfl, by simp only [evalLoop, hstmt]⟩

theorem eval_handler_failure_isolated_witness :
    (evalStmt reg2 st0 "bad".toList = handleError "Error: boom" st0 ∧
     handleError "Error: boom" st0 =
       { st0 with output := st0.output ++ ["\x1b[31m" ++ "Error: boom" ++ "\n"],
                  errlog := st0.errlog ++ ["Error: boom"] } ∧
     evalLoop reg2 ("bad".toList :: ["echo ok".toList]) st0 =
       evalLoop reg2 ["echo ok".toList] (handleError "Error: boom" st0)) ∧
    (evalExpr reg2 "bad; echo ok" st0).output =
      ["\x1b[31mError: boom\n", "ok\n"] :=
  ⟨eval_handler_failure_isolated reg2 "bad".toList ["echo ok".toList] st0
      "bad".toList [] badCmd st0 (.thrown "Error: boom") "Error: boom"
      (by decide) rfl rfl (Or.inl rfl),
   by decide⟩

/-- C9: a statement whose first token resolves to no registered command
makes `__eval` write exactly the line `Unknown command: <name>` to the
output sink; nothing else in the session state (history, variables,
diagnostics — and the registry, which is immutable after construction)
changes, and the loop continues with the next statement. -/
theorem unknown_command_no_mutation (reg : Registry) (chunk : List Char)
    (cs : List (List Char)) (st : CliState) (cmdCs restCs : List Char)
    (h1 : execCmdRegex chunk = some (cmdCs, restCs))
    (h2 : lookupCmd reg (String.mk cmdCs) = none) :
    evalStmt reg st chunk =
      { st with output :=
          st.output ++ ["Unknown command: " ++ String.mk cmdCs ++ "\n"] } ∧
    (evalStmt reg st chunk).history = st.history ∧
    (evalStmt reg st chunk).vars = st.vars ∧
    (evalStmt reg st chunk).errlog = st.errlog ∧
    evalLoop reg (chunk :: cs) st =
      evalLoop reg cs
        { st with output :=
            st.output ++ ["Unknown command: " ++ String.mk cmdCs ++ "\n"] } := by
  have hstmt : evalStmt reg st chunk =
      { st with output :=
          st.output ++ ["Unknown command: " ++ String.mk cmdCs ++ "\n"] } := by
    unfold evalStmt
    rw [h1]
    dsimp only
    rw [h2]
    rfl
  exact ⟨hstmt, by rw [hstmt], by rw [hstmt], by rw [hstmt],
    by simp only [evalLoop, hstmt]⟩

theorem unknown_command_no_mutation_witness :
    (evalStmt reg2 st0 "frobnicate x".toList =
      { st0 with output :=
          st0.output ++ ["Unknown command: " ++ String.mk "frobnicate".toList ++ "\n"] }) ∧
    (evalExpr reg2 "frobnicate x" st0).output = ["Unknown command: frobnicate\n"] ∧
    (evalExpr reg2 "frobnicate x" st0).history = st0.history ∧
    (evalExpr reg2 "frobnicate x" st0).vars = st0.vars :=
  ⟨(unknown_command_no_mutation reg2 "frobnicate x".toList [] st0
      "frobnicate".toList " x".toList (by decide) rfl).1,
   by decide, by decide, by decide⟩

/-!
## Registry lemmas (C5)
-/

theorem lookupCmd_map_replace_hit (t : Registry) (k : String) (v : Handler)
    (hany : t.any (fun p => p.1 == k) = true) :
    lookupCmd (t.map (fun p => if p.1 == k then (k, v) else p)) k = some v := by
  induction t with
  | nil => simp at hany
  | cons p t ih =>
    simp only [List.any_cons, Bool.or_eq_true] at hany
    simp only [List.map_cons]
    by_cases hpk : p.1 == k
    · rw [if_pos hpk]
      simp [lookupCmd]
    · rw [if_neg hpk]
      have hpk2 : p.1 ≠ k := by simpa using hpk
      simp only [lookupCmd, if_neg hpk2]
      exact ih (hany.resolve_left (by simpa using hpk2))

theorem lookupCmd_map_replace_ne (t : Registry) (k : String) (v : Handler)
    (q : String) (hq : q ≠ k) :
    lookupCmd (t.map (fun p => if p.1 == k then (k, v) else p)) q = lookupCmd t q := by
  induction t with
  | nil => rfl
  | cons p t ih =>
    simp only [List.map_cons]
    by_cases hpk : p.1 == k
    · rw [if_pos hpk]
      have hpk2 : p.1 = k := by simpa using hpk
      simp only [lookupCmd]
      rw [if_neg (show ¬ k = q from fun h => hq h.symm),
          if_neg (show ¬ p.1 = q from fun h => hq (hpk2.symm.trans h).symm)]
      exact ih
    · rw [if_neg hpk]
      simp only [lookupCmd]
      by_cases hpq : p.1 = q
      · rw [if_pos hpq, if_pos hpq]
      · rw [if_neg hpq, if_neg hpq]
        exact ih

theorem lookupCmd_eq_none_of_not_any (t : Registry) (k : String)
    (hany : t.any (fun p => p.1 == k) = false) : lookupCmd t k = none := by
  induction t with
  | nil => rfl
  | cons p t ih =>
    simp only [List.any_cons, Bool.or_eq_false_iff] at hany
    have hpk : p.1 ≠ k := by simpa using hany.1
    simp only [lookupCmd, if_neg hpk]
    exact ih hany.2

theorem lookupCmd_append_single (t : Registry) (k : String) (v : Handler)
    (q : String) (hany : t.any (fun p => p.1 == k) = false) :
    lookupCmd (t ++ [(k, v)]) q = if q = k then some v else lookupCmd t q := by
  induction t with
  | nil =>
    simp only [List.nil_append, lookupCmd]
    by_cases hq : q = k
    · rw [if_pos hq, if_pos hq.symm]
    · rw [if_neg hq, if_neg (fun h => hq h.symm)]
  | cons p t ih =>
    simp only [List.any_cons, Bool.or_eq_false_iff] at hany
    have hpk : p.1 ≠ k := by simpa using hany.1
    simp only [List.cons_append, lookupCmd]
    by_cases hpq : p.1 = q
    · rw [if_pos hpq, if_pos hpq]
      rw [if_neg (fun h => hpk (hpq.trans h))]
    · rw [if_neg hpq, if_neg hpq]
      exact ih hany.2

/-- The `Map.set` semantics: the new binding wins for its own key and nothing
else changes — a later registration of the same name replaces the earlier
one. -/
theorem lookupCmd_mapSet (m : Registry) (k : String) (v : Handler) (q : String) :
    lookupCmd (mapSet m k v) q = if q = k then some v else lookupCmd m q := by
  unfold mapSet
  by_cases hany : m.any (fun p => p.1 == k) = true
  · rw [if_pos hany]
    by_cases hq : q = k
    · rw [if_pos hq, hq]
      exact lookupCmd_map_replace_hit m k v hany
    · rw [if_neg hq]
      exact lookupCmd_map_replace_ne m k v q hq
  · rw [if_neg hany]
    exact lookupCmd_append_single m k v q (Bool.eq_false_iff.mpr hany)

theorem lookupCmd_registerProvider :
    ∀ (provider : List (String × Option Handler)) (m : Registry) (k : String),
      lookupCmd (registerProvider m provider) k =
        match providerResolve provider k with
        | some f => some f
        | none => lookupCmd m k := by
  intro provider
  induction provider with
  | nil => intro m k; rfl
  | cons p ps ih =>
    intro m k
    simp only [registerProvider, providerResolve]
    rw [ih]
    cases hres : providerResolve ps k with
    | some f => rfl
    | none =>
      dsimp only
      cases hp2 : p.2 with
      | some f =>
        dsimp only
        rw [lookupCmd_mapSet]
        by_cases hk : p.1 = k
        · rw [if_pos hk, if_pos hk.symm]
        · rw [if_neg hk, if_neg (fun h => hk h.symm)]
      | none => rfl

/-!
## History-clean lemmas (C7)
-/

theorem mem_dedupFirst : ∀ (l : List String) (x : String), x ∈ dedupFirst l ↔ x ∈ l := by
  intro l
  induction l with
  | nil => intro x; simp [dedupFirst]
  | cons a t ih =>
    intro x
    simp only [dedupFirst, List.mem_cons, List.mem_filter]
    constructor
    · rintro (rfl | ⟨hx, _⟩)
      · exact Or.inl rfl
      · exact Or.inr ((ih x).mp hx)
    · rintro (rfl | hx)
      · exact Or.inl rfl
      · by_cases hxa : x = a
        · exact Or.inl hxa
        · exact Or.inr ⟨(ih x).mpr hx, by simpa using hxa⟩

theorem dedupFirst_nodup : ∀ (l : List String), (dedupFirst l).Nodup := by
  intro l
  induction l with
  | nil => simp [dedupFirst]
  | cons a t ih =>
    simp only [dedupFirst, List.nodup_cons]
    refine ⟨fun hmem => ?_, ih.filter _⟩
    have := (List.mem_filter.mp hmem).2
    simp at this

theorem dedupFirst_of_nodup : ∀ (l : List String), l.Nodup → dedupFirst l = l := by
  intro l
  induction l with
  | nil => intro _; rfl
  | cons a t ih =>
    intro h
    rw [List.nodup_cons] at h
    simp only [dedupFirst, ih h.2]
    congr 1
    refine List.filter_eq_self.mpr (fun x hx => ?_)
    simp only [decide_eq_true_eq]
    exact fun hxa => h.1 (hxa ▸ hx)

theorem cleanHistory_mem (valid h : List String) (x : String) :
    x ∈ cleanHistory valid h ↔ x ∈ h ∧ valid.contains (leadingToken x) = true := by
  unfold cleanHistory
  rw [List.mem_filter, mem_dedupFirst]

theorem cleanHistory_nodup (valid h : List String) : (cleanHistory valid h).Nodup :=
  (dedupFirst_nodup h).filter _

theorem cleanHistory_idem (valid h : List String) :
    cleanHistory valid (cleanHistory valid h) = cleanHistory valid h := by
  show List.filter (fun s => valid.contains (leadingToken s))
      (dedupFirst (cleanHistory valid h)) = cleanHistory valid h
  rw [dedupFirst_of_nodup _ (cleanHistory_nodup valid h)]
  unfold cleanHistory
  rw [List.filter_filter]
  congr 1
  funext s
  rw [Bool.and_self]

/-- C5 counterexample: the registry of a fresh session (no caller-supplied
commands) holds exactly the built-ins `clear`, `help`, `history` — there is
no built-in `printvars` in this version of the code. -/
theorem printvars_not_registered :
    regNames (mkCommands []) = ["clear", "help", "history"] ∧
    (lookupCmd (mkCommands []) "printvars").isNone = true :=
  ⟨by decide, rfl⟩

/-- C5 (amended): the registry constructed at session creation contains the
built-ins `clear`, `help` and `history` (not `printvars`), merged with the
caller-supplied commands in the order built-ins first, then caller-supplied
(whose last function-valued binding for a name wins), with a later
registration of a name replacing the earlier one; `help` writes the list of
all registered command names sorted, one per (tab-indented) line, plus the
hint about `<command> --?`. -/
theorem registry_merge_and_help (customs : List (String × Option Handler))
    (names : List String) (st : CliState) (k : String) :
    regNames (mkCommands []) = ["clear", "help", "history"] ∧
    lookupCmd (mkCommands customs) k =
      (match providerResolve customs k with
       | some f => some f
       | none => lookupCmd (registerProvider [] builtinProvider) k) ∧
    (∀ (m : Registry) (k2 : String) (v : Handler) (q : String),
      lookupCmd (mapSet m k2 v) q = if q = k2 then some v else lookupCmd m q) ∧
    helpCmd names st [] =
      (writeLn
        (writeLn (writeLn st "These are the available commands:")
          (String.intercalate "\n"
            ((List.insertionSort (· ≤ ·) names).map (fun s => "\t" ++ s))))
        "\nTry `<command> --?` for more information on a specific command.",
       .value) ∧
    List.Sorted (· ≤ ·) (List.insertionSort (· ≤ ·) names) ∧
    (List.insertionSort (· ≤ ·) names).Perm names :=
  ⟨by decide,
   lookupCmd_registerProvider customs (registerProvider [] builtinProvider) k,
   fun m k2 v q => lookupCmd_mapSet m k2 v q,
   rfl,
   List.sorted_insertionSort (· ≤ ·) names,
   List.perm_insertionSort (· ≤ ·) names⟩

/-- C7: `history --clean` deduplicates (keeping the first occurrence) and
keeps exactly the entries whose leading whitespace-delimited token is a
registered non-built-in command name; the result is duplicate-free, the
operation is idempotent, and the `history` handler applies it with the
registered names minus the built-in names, resets the cursor to the new
length and reports completion. -/
theorem history_clean_spec (valid h : List String) (names : List String)
    (st : CliState) (x : String) :
    cleanHistory valid (cleanHistory valid h) = cleanHistory valid h ∧
    (x ∈ cleanHistory valid h ↔ x ∈ h ∧ valid.contains (leadingToken x) = true) ∧
    (cleanHistory valid h).Nodup ∧
    historyCmd names st ["--clean"] =
      (writeLn
        { st with
          history := cleanHistory
            (names.filter (fun s => !builtInCommandNames.contains s)) st.history,
          histPos := ((cleanHistory
            (names.filter (fun s => !builtInCommandNames.contains s))
            st.history).length : Int),
          histLimit := HistLimit.undef }
        "The history has been cleaned.",
       .value) :=
  ⟨cleanHistory_idem valid h, cleanHistory_mem valid h x, cleanHistory_nodup valid h, rfl⟩

/-!
## Variable Store lemmas (C3, C4)
-/

theorem varsLookup_varsStore (vs : List (String × String)) (n v : String) :
    varsLookup (varsStore n v vs) n = some v := by
  unfold varsStore
  induction vs with
  | nil => simp [varsLookup]
  | cons p t ih =>
    rw [List.filter_cons]
    by_cases hp : p.1 = n
    · rw [if_neg (by simp [hp])]
      exact ih
    · rw [if_pos (by simp [hp]), List.cons_append]
      simp only [varsLookup]
      rw [if_neg hp]
      exact ih

theorem varsLookup_varsRemove (vs : List (String × String)) (n : String) :
    varsLookup (varsRemove n vs) n = none := by
  unfold varsRemove
  induction vs with
  | nil => rfl
  | cons p t ih =>
    rw [List.filter_cons]
    by_cases hp : p.1 = n
    · rw [if_neg (by simp [hp])]
      exact ih
    · rw [if_pos (by simp [hp])]
      simp only [varsLookup]
      rw [if_neg hp]
      exact ih

/-- A session registry with the built-ins plus a caller-supplied `echo`. -/
def regE : Registry := mkCommands [("echo", some echoCmd)]

/-- A session state in which the variable `foo` is defined as `bar`. -/
def stV : CliState := { st0 with vars := [("foo", "bar")] }

/-- C3 (Variable Store modelled from the spec; src v1.0.2 declares
"commands or variable assignments" for `eval` but implements no assignment
branch): a statement matching the assignment pattern is handled as an
assignment before any command dispatch — `x=5` makes the Variable Store map
`x` to `"5"` without writing anything or invoking any handler (so it is
never dispatched as a command named `x=5`), and `x=` afterwards removes
`x`. -/
theorem assignment_precedence (reg : Registry) (st : CliState) (chunk : List Char)
    (n v : String) :
    (parseAssignment chunk = some (n, v) → evalStmtV reg st chunk = varSet n v st) ∧
    evalStmtV reg st "x=5".toList = { st with vars := varsStore "x" "5" st.vars } ∧
    varsLookup (evalStmtV reg st "x=5".toList).vars "x" = some "5" ∧
    (evalStmtV reg st "x=5".toList).output = st.output ∧
    evalStmtV reg st "x=".toList = { st with vars := varsRemove "x" st.vars } ∧
    varsLookup (evalStmtV reg st "x=".toList).vars "x" = none := by
  have h5 : evalStmtV reg st "x=5".toList = { st with vars := varsStore "x" "5" st.vars } := rfl
  have h0 : evalStmtV reg st "x=".toList = { st with vars := varsRemove "x" st.vars } := rfl
  refine ⟨?_, h5, ?_, by rw [h5], h0, ?_⟩
  · intro h
    unfold evalStmtV
    rw [h]
  · rw [h5]; exact varsLookup_varsStore st.vars "x" "5"
  · rw [h0]; exact varsLookup_varsRemove st.vars "x"

theorem assignment_precedence_witness :
    parseAssignment "x=5".toList = some ("x", "5") ∧
    evalStmtV [] st0 "x=5".toList = varSet "x" "5" st0 :=
  ⟨by decide, (assignment_precedence [] st0 "x=5".toList "x" "5").1 (by decide)⟩

/-- C4 (Variable Store modelled from the spec; absent from src v1.0.2):
arguments are substituted before the handler is invoked — `$foo` becomes
`bar` when `foo=bar` is defined (case-insensitively), `$foobaz` is left
alone because a word boundary is required after the name, and an argument
starting with `-` is never rewritten; the spec-modelled evaluator step
passes every tokenized argument through `substitute` before calling the
resolved handler. -/
theorem substitution_word_boundary (vars : List (String × String)) (arg : String)
    (reg : Registry) (st : CliState) (chunk : List Char) (cmdCs restCs : List Char)
    (f : Handler) (st1 : CliState) :
    substitute [("foo", "bar")] "$foo" = "bar" ∧
    substitute [("foo", "bar")] "$foobaz" = "$foobaz" ∧
    substitute [("foo", "bar")] "$FOO" = "bar" ∧
    (arg.toList.head? = some '-' → substitute vars arg = arg) ∧
    (parseAssignment chunk = none →
      execCmdRegex chunk = some (cmdCs, restCs) →
      lookupCmd reg (String.mk cmdCs) = some f →
      f (regNames reg) st ((tokenizeArgs restCs).map (substitute st.vars)) =
        (st1, .value) →
      evalStmtV reg st chunk = st1) := by
  refine ⟨by decide, by decide, by decide, ?_, ?_⟩
  · intro h
    unfold substitute
    rw [if_pos h]
  · intro hp he hl hf
    unfold evalStmtV
    rw [hp]
    dsimp only
    rw [he]
    dsimp only
    rw [hl]
    dsimp only
    rw [hf]

theorem substitution_word_boundary_witness :
    (evalStmtV regE stV "echo $foo".toList = writeLn stV "bar") ∧
    (evalStmtV regE stV "echo $foo".toList).output = ["bar\n"] ∧
    substitute stV.vars "-$foo" = "-$foo" :=
  ⟨(substitution_word_boundary stV.vars "" regE stV "echo $foo".toList
      "echo".toList " $foo".toList echoCmd (writeLn stV "bar")).2.2.2.2
      (by decide) (by decide) rfl (by decide),
   by decide, by decide⟩

/-- C8: the `Enter` handler records a committed line by appending its
trimmed form unless the raw line equals the last recorded entry, then drops
the oldest entries until the history is within the configured limit, and
resets the cursor to the new history length; recording `ls` twice
consecutively yields one entry, while `ls`, `pwd`, `ls` yields three. -/
theorem history_record_spec (st : CliState) (line : String) (n : Nat) :
    (st.history.getLast? = some line →
      (recordLine line st).history = spliceFront st.history st.histLimit) ∧
    (st.history.getLast? ≠ some line →
      (recordLine line st).history =
        spliceFront (st.history ++ [jsTrim line]) st.histLimit) ∧
    (st.histLimit = HistLimit.num n → st.history.length ≤ n →
      (recordLine line st).history.length ≤ n) ∧
    (st.histLimit = HistLimit.num n → st.history.length < n →
      st.history.getLast? ≠ some line →
      (recordLine line st).history = st.history ++ [jsTrim line]) ∧
    (recordLine line st).histPos = ((recordLine line st).history.length : Int) ∧
    (recordLine "ls" (recordLine "ls" st0)).history = ["ls"] ∧
    (recordLine "ls" (recordLine "pwd" (recordLine "ls" st0))).history =
      ["ls", "pwd", "ls"] := by
  refine ⟨?_, ?_, ?_, ?_, rfl, by decide, by decide⟩
  · intro h
    simp only [recordLine, if_pos h]
  · intro h
    simp only [recordLine, if_neg h]
  · intro hlim hlen
    simp only [recordLine, hlim, spliceFront]
    split
    · simp only [List.length_drop]
      omega
    · simp only [List.length_drop, List.length_append, List.length_singleton]
      omega
  · intro hlim hlen hne
    simp only [recordLine, if_neg hne, hlim, spliceFront]
    have hz : (st.history ++ [jsTrim line]).length - n = 0 := by
      simp only [List.length_append, List.length_singleton]
      omega
    rw [hz, List.drop_zero]

theorem history_record_spec_witness :
    ({ st0 with history := ["ls"] } : CliState).history.getLast? = some "ls" ∧
    (recordLine "ls" { st0 with history := ["ls"] }).history =
      spliceFront ({ st0 with history := ["ls"] } : CliState).history
        ({ st0 with history := ["ls"] } : CliState).histLimit :=
  ⟨by decide, (history_record_spec { st0 with history := ["ls"] } "ls" 50).1 (by decide)⟩

/-!
## Tokenizer lemmas (C6, C10)
-/

theorem findClose_append (interior rest : List Char) (h : '"' ∉ interior) :
    findClose (interior ++ '"' :: rest) = some (interior, rest) := by
  induction interior with
  | nil => simp [findClose]
  | cons c t ih =>
    simp only [List.mem_cons, not_or] at h
    have h1 : ¬ c == '"' := by simpa using fun hh => h.1 hh.symm
    simp only [List.cons_append, findClose, List.append_eq]
    rw [if_neg h1, ih h.2]

theorem takeWhile_append_run {p : Char → Bool} :
    ∀ (w : List Char) (d : Char) (r : List Char),
      (∀ c ∈ w, p c = true) → p d = false →
      (w ++ d :: r).takeWhile p = w ∧ (w ++ d :: r).dropWhile p = d :: r := by
  intro w
  induction w with
  | nil =>
    intro d r _ hd
    simp [List.takeWhile, List.dropWhile, hd]
  | cons c t ih =>
    intro d r hw hd
    have hc : p c = true := hw c (List.mem_cons_self c t)
    have ht := ih d r (fun x hx => hw x (List.mem_cons_of_mem c hx)) hd
    simp only [List.cons_append, List.takeWhile_cons, List.dropWhile_cons, hc, if_pos]
    exact ⟨by rw [ht.1], by rw [ht.2]⟩

theorem tokF_ne_empty : ∀ (n : Nat) (cs : List Char), ∀ t ∈ tokF n cs, t ≠ "" := by
  intro n
  induction n with
  | zero =>
    intro cs t ht
    cases cs <;> simp [tokF] at ht
  | succ n ih =>
    intro cs t ht
    match cs with
    | [] => simp [tokF] at ht
    | c :: cs2 =>
      simp only [tokF] at ht
      by_cases hq : c == '"'
      · rw [if_pos hq] at ht
        cases hfc : findClose cs2 with
        | some pr =>
          obtain ⟨interior, rest⟩ := pr
          rw [hfc] at ht
          dsimp only at ht
          rcases List.mem_cons.mp ht with h | h
          · subst h
            by_cases hi : interior = []
            · rw [if_pos hi]; decide
            · rw [if_neg hi]
              intro hcon
              exact hi (congrArg String.data hcon)
          · exact ih rest t h
        | none =>
          rw [hfc] at ht
          dsimp only at ht
          rcases List.mem_cons.mp ht with h | h
          · subst h
            intro hcon
            simpa using congrArg String.data hcon
          · exact ih _ t h
      · rw [if_neg hq] at ht
        by_cases hw : jsWs c
        · rw [if_pos hw] at ht
          exact ih cs2 t ht
        · rw [if_neg hw] at ht
          rcases List.mem_cons.mp ht with h | h
          · subst h
            intro hcon
            simpa using congrArg String.data hcon
          · exact ih _ t h

theorem tokenizeArgs_empty_quotes (r : List Char) :
    tokenizeArgs ('"' :: '"' :: r) = "\"\"" :: tokenizeArgs r := by
  have h := @tokenizeArgs_quoted ('"' :: r) [] r rfl
  simpa using h

/-- C6 counterexample: the empty double-quoted span does **not** yield its
(empty) interior with the quotes stripped — because the empty capture is
falsy in JavaScript, `""` tokenizes to the two-character literal `""`. -/
theorem tokenize_empty_quotes_literal :
    tokenizeArgsStr "\"\"" = ["\"\""] ∧ tokenizeArgsStr "\"\"" ≠ [""] :=
  ⟨by decide, by decide⟩

/-- C6 (amended): tokenizing the remainder of a command line yields one
argument per double-quoted span with *nonempty* interior (quotes stripped,
interior — spaces included — preserved; an empty quoted span instead yields
the two-character literal `""`), and one argument per maximal unquoted run
of non-whitespace, in left-to-right order; an unterminated quote degrades
to an ordinary literal token, and tokenization is a total function (it
never throws). -/
theorem tokenization_amended (interior rest w : List Char) (d : Char) :
    tokenizeArgsStr " \"a b\" c" = ["a b", "c"] ∧
    (interior ≠ [] → '"' ∉ interior →
      tokenizeArgs ('"' :: interior ++ '"' :: rest) =
        String.mk interior :: tokenizeArgs rest) ∧
    (w ≠ [] → (∀ c ∈ w, jsWs c = false) → w.head? ≠ some '"' → jsWs d = true →
      tokenizeArgs (w ++ d :: rest) = String.mk w :: tokenizeArgs (d :: rest)) ∧
    tokenizeArgsStr "\"unterminated" = ["\"unterminated"] := by
  refine ⟨by decide, ?_, ?_, by decide⟩
  · intro hne hq
    rw [List.cons_append, tokenizeArgs_quoted (findClose_append interior rest hq),
      if_neg hne]
  · intro hne hws hhead hd
    match w with
    | [] => exact absurd rfl hne
    | c :: t =>
      have hc : jsWs c = false := hws c (List.mem_cons_self c t)
      have hcq : ¬ c == '"' := by
        simp only [List.head?_cons] at hhead
        simpa using fun h => hhead (by rw [h])
      have ht := @takeWhile_append_run (fun c => !jsWs c) t d rest
        (fun x hx => by simp [hws x (List.mem_cons_of_mem c hx)])
        (by simp [hd])
      rw [List.cons_append,
        tokenizeArgs_unquoted (t ++ d :: rest) hcq (by simp [hc]),
        ht.1, ht.2]

theorem tokenization_amended_witness :
    ("ab".toList ≠ ([] : List Char)) ∧
    tokenizeArgs ('"' :: "ab".toList ++ '"' :: " c".toList) =
      String.mk "ab".toList :: tokenizeArgs " c".toList :=
  ⟨by decide,
   (tokenization_amended "ab".toList " c".toList [] ' ').2.1 (by decide) (by decide)⟩

/-- C10: tokenization never produces an empty-string argument: the `||`
fallback pushes the whole match when the quoted capture is empty, so the
two-character input `""` reaches the handler as the literal `""`, never as
the empty string. -/
theorem tokenize_no_empty_arg (cs : List Char) (r : List Char) :
    (∀ t ∈ tokenizeArgs cs, t ≠ "") ∧
    tokenizeArgsStr "\"\"" = ["\"\""] ∧
    tokenizeArgs ('"' :: '"' :: r) = "\"\"" :: tokenizeArgs r :=
  ⟨fun t ht => tokF_ne_empty cs.length cs t ht, by decide, tokenizeArgs_empty_quotes r⟩

theorem tokenize_no_empty_arg_witness :
    ("ok" ∈ tokenizeArgs " ok".toList) ∧ "ok" ≠ "" :=
  ⟨by decide, (tokenize_no_empty_arg " ok".toList []).1 "ok" (by decide)⟩

end Cli

/-! Concrete behavioural checks of the embedding. -/
example : Cli.splitStatements "a;; b \n\n ;c " = ["a", "b", "c "] := by decide
example : Cli.splitStatements "" = [] := by decide
example : Cli.splitStatements " ; ; " = [] := by decide
example : Cli.tokenizeArgsStr " \"a b\" c" = ["a b", "c"] := by decide
example : Cli.tokenizeArgsStr "\"unterminated" = ["\"unterminated"] := by decide
example : Cli.tokenizeArgsStr "\"\"" = ["\"\""] := by decide
example : Cli.tokenizeArgsStr "a\"b c\"d" = ["a\"b", "c\"d"] := by decide

example : Cli.parseAssignment "x=5".toList = some ("x", "5") := by decide
example : Cli.parseAssignment "x=".toList = some ("x", "") := by decide
example : Cli.parseAssignment "echo a=b".toList = none := by decide
example : Cli.parseAssignment "a=b c".toList = some ("a", "b c") := by decide
example : Cli.parseAssignment "a=b=c".toList = some ("a=b", "c") := by decide
example : Cli.substitute [("foo", "bar")] "$foo" = "bar" := by decide
example : Cli.substitute [("foo", "bar")] "$foobaz" = "$foobaz" := by decide
example : Cli.substitute [("foo", "bar")] "$FOO" = "bar" := by decide
example : Cli.substitute [("foo", "bar")] "-$foo" = "-$foo" := by decide
example : Cli.substitute [("foo", "bar")] "x $foo y" = "x bar y" := by decide
example : Cli.regNames (Cli.mkCommands []) = ["clear", "help", "history"] := by decide
example : (Cli.lookupCmd (Cli.mkCommands []) "printvars").isNone = true := rfl
example : Cli.execCmdRegex "  frobnicate x".toList =
    some ("frobnicate".toList, " x".toList) := by decide
example : Cli.cleanHistory ["foo"] ["foo a", "help", "foo a", "bar"] = ["foo a"] := by decide
example :
    (Cli.historyCmd ["clear", "help", "history", "foo"]
      { Cli.st0 with history := ["foo a", "foo a", "bar"] } ["--clean"]).1.history =
      ["foo a"] := by decide
example :
    (Cli.historyCmd ["clear", "help", "history", "foo"]
      { Cli.st0 with history := ["foo a"] } ["--clean"]).1.histLimit =
      Cli.HistLimit.undef := by decide
example :
    (Cli.historyCmd [] Cli.st0 ["--clear"]).1 =
      { Cli.st0 with history := [], histPos := -1, histLimit := Cli.HistLimit.undef } := by
  decide
